import Mathlib

/-!
Shallow embedding of the two TensorFlow-Go example binaries:
a classifier (`main.go`) and a chip-based object detector (the second,
unnamed source file).  The pure post-processing logic (tiling, coordinate
remapping, label parsing, argmax selection, detection assembly, CLI flag
dispatch) is translated directly from the Go source.  `float32` values are
modelled as exact rationals; every concrete input used below is exactly
representable in `float32` and its products are exact, so the rational
model agrees with the Go computation on those inputs.  A Go runtime panic
(index out of range) is modelled as `Option.none`.
-/

namespace TFGo

/-- Chip width, from the detector's `const ( H, W = 300, 300 ... )`. -/
def W : ℕ := 300

/-- Chip height, from the same constant block. -/
def H : ℕ := 300

/-- Go's `image.Point`. -/
structure Point where
  X : ℤ
  Y : ℤ
deriving DecidableEq

/-- Go's `image.Rectangle`: `Min` inclusive, `Max` exclusive. -/
structure Rectangle where
  Min : Point
  Max : Point
deriving DecidableEq

/-- Membership of a pixel in a rectangle, after Go `image.Point.In`:
`Min.X <= x && x < Max.X && Min.Y <= y && y < Max.Y`. -/
def Rectangle.Contains (r : Rectangle) (px py : ℤ) : Prop :=
  r.Min.X ≤ px ∧ px < r.Max.X ∧ r.Min.Y ≤ py ∧ py < r.Max.Y

instance (r : Rectangle) (px py : ℤ) : Decidable (r.Contains px py) := by
  unfold Rectangle.Contains
  infer_instance

/-- A chip of the tiling, Go `type Chip struct { X, Y int; Im image.Image }`.
The cropped pixel data is represented by the sub-image's rectangle. -/
structure Chip where
  X : ℕ
  Y : ℕ
  Rect : Rectangle
deriving DecidableEq

/-- Number of chip columns, Go `wn := im.Bounds().Dx() / W`
(Go integer division; both operands are non-negative here). -/
def wn (Wi : ℕ) : ℕ := Wi / W

/-- Number of chip rows, Go `hn := im.Bounds().Dy() / H`. -/
def hn (Hi : ℕ) : ℕ := Hi / H

/-- The rectangle cropped for grid cell `(x, y)`:
Go `image.Rect(w, h, w+W, h+H)` with `w = x*W`, `h = y*H`. -/
def chipRect (x y : ℕ) : Rectangle :=
  ⟨⟨(x * W : ℕ), (y * H : ℕ)⟩, ⟨(x * W + W : ℕ), (y * H + H : ℕ)⟩⟩

/-- The tiler, detector `main` lines 86-109: `chips := make([]Chip, wn*hn)`
filled by the loop `for i := 0; i < wn*hn; i++` with `x := i % wn`,
`y := i / wn` and sub-image rectangle `image.Rect(x*W, y*H, x*W+W, y*H+H)`. -/
def chips (Wi Hi : ℕ) : List Chip :=
  (List.range (wn Wi * hn Hi)).map fun i =>
    ⟨i % wn Wi, i / wn Wi, chipRect (i % wn Wi) (i / wn Wi)⟩

/-- Go's conversion `int(f)` of a `float32` to `int`: truncation toward zero. -/
def truncQ (q : ℚ) : ℤ := if 0 ≤ q then ⌊q⌋ else ⌈q⌉

/-- A 4-element `float32` slice holding a normalized box, as a function. -/
def box4 (a b c d : ℚ) : Fin 4 → ℚ
  | 0 => a
  | 1 => b
  | 2 => c
  | 3 => d

/-- The coordinate remapper, Go `transformBox` (detector lines 151-168):
`mx := int(box[0]*W) + (chipX * W)`, `Mx := int(box[2]*W) + (chipX * W)`,
`my := int(box[1]*H) + (chipY * H)`, `My := int(box[3]*H) + (chipY * H)`,
returning `image.Rectangle{Min: {mx, my}, Max: {Mx, My}}`. -/
def transformBox (chipX chipY : ℤ) (box : Fin 4 → ℚ) : Rectangle :=
  let mx : ℤ := truncQ (box 0 * (W : ℚ)) + chipX * (W : ℤ)
  let Mx : ℤ := truncQ (box 2 * (W : ℚ)) + chipX * (W : ℤ)
  let my : ℤ := truncQ (box 1 * (H : ℚ)) + chipY * (H : ℤ)
  let My : ℤ := truncQ (box 3 * (H : ℚ)) + chipY * (H : ℤ)
  ⟨⟨mx, my⟩, ⟨Mx, My⟩⟩

/-- The coordinate remapper as the spec words it, for comparison with
`transformBox`: `min_x = round(box[0]*W) + chipX*W` and so on, `round`
rounding to the nearest integer. -/
def transformBoxSpec (chipX chipY : ℤ) (box : Fin 4 → ℚ) : Rectangle :=
  ⟨⟨round (box 0 * (W : ℚ)) + chipX * (W : ℤ),
    round (box 1 * (H : ℚ)) + chipY * (H : ℤ)⟩,
   ⟨round (box 2 * (W : ℚ)) + chipX * (W : ℤ),
    round (box 3 * (H : ℚ)) + chipY * (H : ℤ)⟩⟩

/-- The spec's remapping formula amended to what the code computes: the
same shape of formula with rounding replaced by truncation toward zero
(Go's `int(...)` conversion). -/
def transformBoxSpecTrunc (chipX chipY : ℤ) (box : Fin 4 → ℚ) : Rectangle :=
  ⟨⟨truncQ (box 0 * (W : ℚ)) + chipX * (W : ℤ),
    truncQ (box 1 * (H : ℚ)) + chipY * (H : ℤ)⟩,
   ⟨truncQ (box 2 * (W : ℚ)) + chipX * (W : ℤ),
    truncQ (box 3 * (H : ℚ)) + chipY * (H : ℤ)⟩⟩

/-- Go `strings.Split` on a one-character separator, over character lists:
splits at every occurrence of `sep`; the result is never empty, and
splitting the empty string yields `[[]]`. -/
def splitChars (sep : Char) : List Char → List (List Char)
  | [] => [[]]
  | c :: rest =>
    if c = sep then [] :: splitChars sep rest
    else
      match splitChars sep rest with
      | [] => [[c]]
      | h :: t => (c :: h) :: t

/-- Go `strings.Split(s, sep)` for a one-character separator. -/
def goSplit (s : String) (sep : Char) : List String :=
  (splitChars sep s.data).map String.mk

/-- Digit-string value, helper for `atoi`. -/
def digitsVal (l : List Char) : ℕ :=
  l.foldl (fun n c => 10 * n + (c.toNat - 48)) 0

/-- Go `strconv.Atoi`: optional sign followed by at least one decimal
digit; anything else is a syntax error (`none`).  The `int64` range check
is not modelled (no input here approaches it). -/
def atoi (s : String) : Option ℤ :=
  match s.data with
  | [] => none
  | '+' :: rest =>
    if rest ≠ [] ∧ rest.all Char.isDigit then some (digitsVal rest : ℤ) else none
  | '-' :: rest =>
    if rest ≠ [] ∧ rest.all Char.isDigit then some (-(digitsVal rest : ℤ)) else none
  | l =>
    if l.all Char.isDigit then some (digitsVal l : ℤ) else none

/-- Go map assignment `labels[k] = v` on a `map[int]string` modelled as a
function to `Option String`. -/
def mapPut (t : ℤ → Option String) (k : ℤ) (v : String) : ℤ → Option String :=
  fun j => if j = k then some v else t j

/-- One iteration of the detector's label-scanning loop (lines 182-186):
`splits := strings.Split(scanner.Text(), ":")`, `id, _ := strconv.Atoi(splits[0])`
(the parse error is discarded and `id` is `0` on failure), then
`labels[id] = splits[1]`.  Accessing `splits[1]` on a line with no colon is
an index-out-of-range panic, modelled as `none`. -/
def processLine (t : ℤ → Option String) (line : String) : Option (ℤ → Option String) :=
  let splits := goSplit line ':'
  match splits[1]? with
  | none => none
  | some descr => some (mapPut t ((atoi (splits.headD "")).getD 0) descr)

/-- The detector's whole label-scanning loop: `labels := make(map[int]string)`
then `processLine` once per scanned line; a panic aborts everything. -/
def parseLabels (lines : List String) : Option (ℤ → Option String) :=
  lines.foldlM processLine fun _ => none

/-- Strip one trailing carriage return, Go `bufio.ScanLines`' `dropCR`. -/
def dropCR (l : List Char) : List Char :=
  if l.getLast? = some '\r' then l.dropLast else l

/-- Go `bufio.Scanner` with the default `ScanLines` split function: lines
are separated by `'\n'`, a trailing final newline produces no extra empty
line, and each line has a trailing `'\r'` stripped. -/
def scanLines (s : String) : List String :=
  let parts := splitChars '\n' s.data
  let parts := if parts.getLast? = some [] then parts.dropLast else parts
  parts.map fun l => String.mk (dropCR l)

/-- The characters of a line before its first colon (what the label id is
parsed from). -/
def idPart (line : String) : String :=
  String.mk (line.data.takeWhile fun c => c ≠ ':')

/-- The characters of a line strictly between its first and second colon
(or everything after the first colon if there is no second one): the
description the detector's loop actually stores. -/
def descrPart (line : String) : String :=
  String.mk (((line.data.dropWhile fun c => c ≠ ':').drop 1).takeWhile fun c => c ≠ ':')

/-- Whether a line contains a colon at all. -/
def hasColon (line : String) : Prop := ':' ∈ line.data

instance (line : String) : Decidable (hasColon line) := by
  unfold hasColon
  infer_instance

/-- One step of the classifier's argmax loop (`main.go` lines 107-112):
`if p > probabilities[bestIdx] { bestIdx = i }`. -/
def bestStep (ps : List ℚ) (b i : ℕ) : ℕ :=
  if ps.getD i 0 > ps.getD b 0 then i else b

/-- The classifier's argmax: `bestIdx := 0` then the loop
`for i, p := range probabilities`. -/
def bestIdx (ps : List ℚ) : ℕ :=
  (List.range ps.length).foldl (bestStep ps) 0

/-- The classifier postprocessor `printBestLabel`: selects `bestIdx` and
reports `labels[bestIdx]` with `probabilities[bestIdx]`; either index
being out of range is a Go panic (`none`). -/
def printBestLabel (ps : List ℚ) (labels : List String) : Option (String × ℚ) :=
  match labels[bestIdx ps]?, ps[bestIdx ps]? with
  | some lab, some p => some (lab, p)
  | _, _ => none

/-- A detection record, Go `type Detect struct`.  The `*Chip` pointer is
represented by the referenced chip's grid coordinates (`none` = nil). -/
structure Detect where
  Bounds : Rectangle
  Class : ℤ
  Chip : Option (ℤ × ℤ)
  Description : String
  Confidence : ℚ
deriving DecidableEq

/-- The zero value of `Detect`, as produced by `make([]Detect, 1)`:
zero rectangle, class 0, nil chip pointer, empty description, score 0. -/
def zeroDetect : Detect := ⟨⟨⟨0, 0⟩, ⟨0, 0⟩⟩, 0, none, "", 0⟩

/-- The detector's per-chip loop body (lines 136-146):
`for i, score := range scores` appends
`Detect{transformBox(chip.X, chip.Y, boxes[i]), int(class), &chip, "", score}`
with `class := classes[i]`.  An out-of-range `boxes[i]` or `classes[i]` is
a panic (`none`).  `i` counts positions already consumed. -/
def buildDetects (cx cy : ℤ) (boxes : List (Fin 4 → ℚ)) (classes : List ℚ) :
    List ℚ → ℕ → Option (List Detect)
  | [], _ => some []
  | score :: rest, i =>
    match boxes[i]?, classes[i]? with
    | some box, some cls =>
      (buildDetects cx cy boxes classes rest (i + 1)).map
        fun ds => ⟨transformBox cx cy box, truncQ cls, some (cx, cy), "", score⟩ :: ds
    | _, _ => none

/-- The full detection list handed to `printDetections` for one chip:
`detects := make([]Detect, 1)` followed by the appending loop, so the
model's detections come after one zero-valued record. -/
def chipDetects (cx cy : ℤ) (boxes : List (Fin 4 → ℚ)) (scores classes : List ℚ) :
    Option (List Detect) :=
  (buildDetects cx cy boxes classes scores 0).map fun ds => zeroDetect :: ds

/-- One output line of `printDetections` (line 189):
`fmt.Printf("%v %v %v %v %v %v\n", Min.X, Min.Y, Max.X, Max.Y, Class, Confidence)`.
Go's `%v` prints integers in base 10 and the `float32` value `0` as `"0"`,
which the rational `ToString` matches on the integral values used here. -/
def detectLine (d : Detect) : String :=
  toString d.Bounds.Min.X ++ " " ++ toString d.Bounds.Min.Y ++ " " ++
    toString d.Bounds.Max.X ++ " " ++ toString d.Bounds.Max.Y ++ " " ++
    toString d.Class ++ " " ++ toString d.Confidence

/-- The detector's outer loop over chips with the per-chip inference and
printing abstracted as `run`: with zero chips the loop body never runs and
nothing is emitted. -/
def imageDetections (Wi Hi : ℕ) (run : Chip → List Detect) : List Detect :=
  (chips Wi Hi).flatMap run

/-- What `main` does after `flag.Parse()`. -/
inductive CliAction where
  | usage
  | run (modeldir imagefile : String)
deriving DecidableEq

/-- Classifier CLI dispatch (`main.go` lines 50-53):
`if *modeldir == "" || *imagefile == "" { flag.Usage(); return }`. -/
def classifierMain (modeldir imagefile : String) : CliAction :=
  if modeldir = "" ∨ imagefile = "" then .usage else .run modeldir imagefile

/-- Detector CLI dispatch (detector lines 49-52), textually identical. -/
def detectorMain (modeldir imagefile : String) : CliAction :=
  if modeldir = "" ∨ imagefile = "" then .usage else .run modeldir imagefile

/-- Whether an action reaches the model-loading code (everything after the
flag check in either `main`). -/
def loadsModel : CliAction → Bool
  | .usage => false
  | .run _ _ => true

/-- Process exit status, where the model determines it: a plain `return`
from Go's `main` (the usage path) exits with status 0; on the run path the
status depends on runtime events and is not modelled. -/
def exitCode : CliAction → Option ℕ
  | .usage => some 0
  | .run _ _ => none

theorem length_chips (Wi Hi : ℕ) : (chips Wi Hi).length = wn Wi * hn Hi := by
  simp [chips]

theorem chips_getD (Wi Hi i : ℕ) (h : i < wn Wi * hn Hi) :
    (chips Wi Hi).getD i ⟨0, 0, chipRect 0 0⟩ =
      ⟨i % wn Wi, i / wn Wi, chipRect (i % wn Wi) (i / wn Wi)⟩ := by
  simp [chips, List.getD_eq_getElem?_getD, List.getElem?_range h]

theorem chipRect_disjoint (x₁ y₁ x₂ y₂ : ℕ) (hne : x₁ ≠ x₂ ∨ y₁ ≠ y₂) (px py : ℤ) :
    ¬((chipRect x₁ y₁).Contains px py ∧ (chipRect x₂ y₂).Contains px py) := by
  simp only [chipRect, Rectangle.Contains, W, H]
  push_cast
  intro hcon
  obtain ⟨⟨a1, a2, a3, a4⟩, ⟨b1, b2, b3, b4⟩⟩ := hcon
  rcases hne with hx | hy
  · omega
  · omega

/-- C1: the tiler produces exactly `wn * hn` chips; chip `i` (row-major)
has grid coordinates `x = i % wn`, `y = i / wn` and is cropped from the
pixel rectangle with corners `(x*W, y*H)` and `((x+1)*W, (y+1)*H)`; chips
are of fixed size `W × H`, pairwise disjoint, and no chip contains a pixel
of the remainder strips beyond `wn*W` horizontally or `hn*H` vertically. -/
theorem tiling_grid (Wi Hi i : ℕ) (h : i < wn Wi * hn Hi) :
    (chips Wi Hi).length = wn Wi * hn Hi ∧
    ((chips Wi Hi).getD i ⟨0, 0, chipRect 0 0⟩).X = i % wn Wi ∧
    ((chips Wi Hi).getD i ⟨0, 0, chipRect 0 0⟩).Y = i / wn Wi ∧
    ((chips Wi Hi).getD i ⟨0, 0, chipRect 0 0⟩).Rect =
      ⟨⟨((i % wn Wi) * W : ℕ), ((i / wn Wi) * H : ℕ)⟩,
       ⟨((i % wn Wi + 1) * W : ℕ), ((i / wn Wi + 1) * H : ℕ)⟩⟩ ∧
    ((chips Wi Hi).getD i ⟨0, 0, chipRect 0 0⟩).Rect.Max.X -
      ((chips Wi Hi).getD i ⟨0, 0, chipRect 0 0⟩).Rect.Min.X = (W : ℤ) ∧
    ((chips Wi Hi).getD i ⟨0, 0, chipRect 0 0⟩).Rect.Max.Y -
      ((chips Wi Hi).getD i ⟨0, 0, chipRect 0 0⟩).Rect.Min.Y = (H : ℤ) ∧
    (∀ j, j < wn Wi * hn Hi → j ≠ i → ∀ px py : ℤ,
      ¬(((chips Wi Hi).getD i ⟨0, 0, chipRect 0 0⟩).Rect.Contains px py ∧
        ((chips Wi Hi).getD j ⟨0, 0, chipRect 0 0⟩).Rect.Contains px py)) ∧
    (∀ px py : ℤ, ((chips Wi Hi).getD i ⟨0, 0, chipRect 0 0⟩).Rect.Contains px py →
      px < ((wn Wi * W : ℕ) : ℤ) ∧ py < ((hn Hi * H : ℕ) : ℤ)) := by
  have hwn : 0 < wn Wi := by
    rcases Nat.eq_zero_or_pos (wn Wi) with h0 | h0
    · rw [h0, Nat.zero_mul] at h
      omega
    · exact h0
  have hhn : 0 < hn Hi := by
    rcases Nat.eq_zero_or_pos (hn Hi) with h0 | h0
    · rw [h0, Nat.mul_zero] at h
      omega
    · exact h0
  rw [chips_getD Wi Hi i h]
  refine ⟨length_chips Wi Hi, rfl, rfl, ?_, ?_, ?_, ?_, ?_⟩
  · simp only [chipRect, Rectangle.mk.injEq, Point.mk.injEq, W, H]
    push_cast
    exact ⟨trivial, by ring, by ring⟩
  · simp only [chipRect, W, H]
    push_cast
    ring
  · simp only [chipRect, W, H]
    push_cast
    ring
  · intro j hj hne px py
    rw [chips_getD Wi Hi j hj]
    refine chipRect_disjoint _ _ _ _ ?_ px py
    by_contra hcon
    push_neg at hcon
    obtain ⟨h1, h2⟩ := hcon
    have di := Nat.div_add_mod i (wn Wi)
    have dj := Nat.div_add_mod j (wn Wi)
    rw [h1, h2] at di
    exact hne (by omega)
  · intro px py hc
    have hx : i % wn Wi < wn Wi := Nat.mod_lt _ hwn
    have hy : i / wn Wi < hn Hi := by
      rw [Nat.div_lt_iff_lt_mul hwn, Nat.mul_comm]
      exact h
    simp only [chipRect, Rectangle.Contains, W, H] at hc ⊢
    push_cast at hc ⊢
    obtain ⟨c1, c2, c3, c4⟩ := hc
    constructor
    · have : (↑(i % wn Wi) + 1) * 300 ≤ (wn Wi : ℤ) * 300 := by
        have : ((i % wn Wi : ℕ) : ℤ) + 1 ≤ (wn Wi : ℤ) := by exact_mod_cast hx
        nlinarith
      omega
    · have : (↑(i / wn Wi) + 1) * 300 ≤ (hn Hi : ℤ) * 300 := by
        have : ((i / wn Wi : ℕ) : ℤ) + 1 ≤ (hn Hi : ℤ) := by exact_mod_cast hy
        nlinarith
      omega

/-- C2 counterexample: at `box[0] = 255/256` (exactly representable in
`float32`, with exact product `255/256 * 300 = 19125/64`, well inside the
24-bit mantissa) the code's `int(box[0]*W)` truncates `298.828125` to
`298`, while the claim's `round(box[0]*W)` is `299`. -/
theorem transformBox_round_cex :
    (transformBox 0 0 (box4 (255 / 256) 0 1 1)).Min.X = 298 ∧
    (transformBoxSpec 0 0 (box4 (255 / 256) 0 1 1)).Min.X = 299 ∧
    (298 : ℤ) ≠ 299 := by
  refine ⟨?_, ?_, by norm_num⟩
  · norm_num [transformBox, truncQ, box4, W, H]
  · norm_num [transformBoxSpec, box4, W, H, round_eq]

/-- C2 amended: the remapper computes the spec's formula with rounding
replaced by truncation toward zero (Go's `int(...)` conversion), and it
performs no clamping: a normalized coordinate at least one pixel beyond
`[0, 1]` yields a rectangle strictly outside the chip's nominal bounds,
unchanged. -/
theorem transformBox_trunc_formula (chipX chipY : ℤ) (box : Fin 4 → ℚ) :
    transformBox chipX chipY box = transformBoxSpecTrunc chipX chipY box ∧
    ((W : ℚ) + 1 ≤ box 2 * (W : ℚ) →
      (W : ℤ) * (chipX + 1) < (transformBox chipX chipY box).Max.X) ∧
    (box 0 * (W : ℚ) ≤ -1 →
      (transformBox chipX chipY box).Min.X < (W : ℤ) * chipX) ∧
    ((H : ℚ) + 1 ≤ box 3 * (H : ℚ) →
      (H : ℤ) * (chipY + 1) < (transformBox chipX chipY box).Max.Y) ∧
    (box 1 * (H : ℚ) ≤ -1 →
      (transformBox chipX chipY box).Min.Y < (H : ℤ) * chipY) := by
  refine ⟨rfl, ?_, ?_, ?_, ?_⟩
  · intro hb
    have hq : (0 : ℚ) ≤ box 2 * (W : ℚ) := by
      have : (0 : ℚ) < (W : ℚ) + 1 := by norm_num [W]
      linarith
    have hfl : ((W : ℤ) + 1) ≤ ⌊box 2 * (W : ℚ)⌋ := by
      refine Int.le_floor.mpr ?_
      push_cast
      exact hb
    simp only [transformBox, truncQ, if_pos hq]
    simp only [W] at hfl ⊢
    omega
  · intro hb
    have hq : ¬(0 : ℚ) ≤ box 0 * (W : ℚ) := by linarith
    have hcl : ⌈box 0 * (W : ℚ)⌉ ≤ -1 := by
      refine Int.ceil_le.mpr ?_
      push_cast
      exact hb
    simp only [transformBox, truncQ, if_neg hq]
    simp only [W] at hcl ⊢
    omega
  · intro hb
    have hq : (0 : ℚ) ≤ box 3 * (H : ℚ) := by
      have : (0 : ℚ) < (H : ℚ) + 1 := by norm_num [H]
      linarith
    have hfl : ((H : ℤ) + 1) ≤ ⌊box 3 * (H : ℚ)⌋ := by
      refine Int.le_floor.mpr ?_
      push_cast
      exact hb
    simp only [transformBox, truncQ, if_pos hq]
    simp only [H] at hfl ⊢
    omega
  · intro hb
    have hq : ¬(0 : ℚ) ≤ box 1 * (H : ℚ) := by linarith
    have hcl : ⌈box 1 * (H : ℚ)⌉ ≤ -1 := by
      refine Int.ceil_le.mpr ?_
      push_cast
      exact hb
    simp only [transformBox, truncQ, if_neg hq]
    simp only [H] at hcl ⊢
    omega

/-- C2 witness: chip `(5, 7)` with the box `[-2, -2, 2, 2]`, whose
entries and products are exact in `float32`. -/
theorem transformBox_trunc_formula_witness :
    transformBox 5 7 (box4 (-2) (-2) 2 2) = transformBoxSpecTrunc 5 7 (box4 (-2) (-2) 2 2) ∧
    ((W : ℚ) + 1 ≤ box4 (-2) (-2) 2 2 2 * (W : ℚ) →
      (W : ℤ) * (5 + 1) < (transformBox 5 7 (box4 (-2) (-2) 2 2)).Max.X) ∧
    (box4 (-2) (-2) 2 2 0 * (W : ℚ) ≤ -1 →
      (transformBox 5 7 (box4 (-2) (-2) 2 2)).Min.X < (W : ℤ) * 5) ∧
    ((H : ℚ) + 1 ≤ box4 (-2) (-2) 2 2 3 * (H : ℚ) →
      (H : ℤ) * (7 + 1) < (transformBox 5 7 (box4 (-2) (-2) 2 2)).Max.Y) ∧
    (box4 (-2) (-2) 2 2 1 * (H : ℚ) ≤ -1 →
      (transformBox 5 7 (box4 (-2) (-2) 2 2)).Min.Y < (H : ℤ) * 7) :=
  transformBox_trunc_formula 5 7 (box4 (-2) (-2) 2 2)

/-- C3: a box fully occupying a chip maps to exactly that chip's pixel
rectangle: chip `(1, 2)` with `box = [0, 0, 1, 1]` gives the rectangle
with min corner `(300, 600)` and max corner `(600, 900)`. -/
theorem transformBox_unit_box :
    transformBox 1 2 (box4 0 0 1 1) = ⟨⟨300, 600⟩, ⟨600, 900⟩⟩ := by
  norm_num [transformBox, truncQ, box4, W, H]

/-- C8: for a fixed normalized box, increasing `chipX` by 1 shifts
`min_x` and `max_x` by exactly `W` and leaves the y-coordinates
unchanged; increasing `chipY` by 1 shifts `min_y` and `max_y` by exactly
`H` and leaves the x-coordinates unchanged. -/
theorem transformBox_chip_shift (chipX chipY : ℤ) (box : Fin 4 → ℚ) :
    (transformBox (chipX + 1) chipY box).Min.X = (transformBox chipX chipY box).Min.X + (W : ℤ) ∧
    (transformBox (chipX + 1) chipY box).Max.X = (transformBox chipX chipY box).Max.X + (W : ℤ) ∧
    (transformBox (chipX + 1) chipY box).Min.Y = (transformBox chipX chipY box).Min.Y ∧
    (transformBox (chipX + 1) chipY box).Max.Y = (transformBox chipX chipY box).Max.Y ∧
    (transformBox chipX (chipY + 1) box).Min.Y = (transformBox chipX chipY box).Min.Y + (H : ℤ) ∧
    (transformBox chipX (chipY + 1) box).Max.Y = (transformBox chipX chipY box).Max.Y + (H : ℤ) ∧
    (transformBox chipX (chipY + 1) box).Min.X = (transformBox chipX chipY box).Min.X ∧
    (transformBox chipX (chipY + 1) box).Max.X = (transformBox chipX chipY box).Max.X := by
  simp only [transformBox]
  refine ⟨?_, ?_, ?_, ?_, ?_, ?_, ?_, ?_⟩
  all_goals first | trivial | ring

/-- C1 witness: the spec's own example image, 650 by 620 pixels, with
chip index 3. -/
theorem tiling_grid_witness :
    (chips 650 620).length = wn 650 * hn 620 ∧
    ((chips 650 620).getD 3 ⟨0, 0, chipRect 0 0⟩).X = 3 % wn 650 ∧
    ((chips 650 620).getD 3 ⟨0, 0, chipRect 0 0⟩).Y = 3 / wn 650 ∧
    ((chips 650 620).getD 3 ⟨0, 0, chipRect 0 0⟩).Rect =
      ⟨⟨((3 % wn 650) * W : ℕ), ((3 / wn 650) * H : ℕ)⟩,
       ⟨((3 % wn 650 + 1) * W : ℕ), ((3 / wn 650 + 1) * H : ℕ)⟩⟩ ∧
    ((chips 650 620).getD 3 ⟨0, 0, chipRect 0 0⟩).Rect.Max.X -
      ((chips 650 620).getD 3 ⟨0, 0, chipRect 0 0⟩).Rect.Min.X = (W : ℤ) ∧
    ((chips 650 620).getD 3 ⟨0, 0, chipRect 0 0⟩).Rect.Max.Y -
      ((chips 650 620).getD 3 ⟨0, 0, chipRect 0 0⟩).Rect.Min.Y = (H : ℤ) ∧
    (∀ j, j < wn 650 * hn 620 → j ≠ 3 → ∀ px py : ℤ,
      ¬(((chips 650 620).getD 3 ⟨0, 0, chipRect 0 0⟩).Rect.Contains px py ∧
        ((chips 650 620).getD j ⟨0, 0, chipRect 0 0⟩).Rect.Contains px py)) ∧
    (∀ px py : ℤ, ((chips 650 620).getD 3 ⟨0, 0, chipRect 0 0⟩).Rect.Contains px py →
      px < ((wn 650 * W : ℕ) : ℤ) ∧ py < ((hn 620 * H : ℕ) : ℤ)) :=
  tiling_grid 650 620 3 (by decide)

theorem splitChars_eq (sep : Char) (l : List Char) :
    splitChars sep l =
      (l.takeWhile fun c => c ≠ sep) ::
        (if sep ∈ l then splitChars sep ((l.dropWhile fun c => c ≠ sep).drop 1) else []) := by
  induction l with
  | nil => simp [splitChars]
  | cons c rest ih =>
    by_cases hc : c = sep
    · subst hc
      simp [splitChars, List.takeWhile_cons, List.dropWhile_cons]
    · have hsc : sep ≠ c := fun hh => hc hh.symm
      simp only [splitChars, if_neg hc]
      rw [ih]
      simp [List.takeWhile_cons, List.dropWhile_cons, hc, hsc]

theorem processLine_noColon (t : ℤ → Option String) (line : String) (h : ¬hasColon line) :
    processLine t line = none := by
  unfold hasColon at h
  unfold processLine goSplit
  rw [splitChars_eq, if_neg h]
  rfl

theorem processLine_hasColon (t : ℤ → Option String) (line : String) (h : hasColon line) :
    processLine t line =
      some (mapPut t ((atoi (idPart line)).getD 0) (descrPart line)) := by
  unfold hasColon at h
  unfold processLine goSplit
  rw [splitChars_eq, if_pos h, splitChars_eq]
  simp only [List.map_cons, List.getElem?_cons_succ, List.getElem?_cons_zero, List.headD_cons]
  rfl

/-- C4 counterexample: in the label content `["0:person", "x:car"]` the
malformed second row is not ignored: its unparseable id falls back to `0`
and its description overwrites the entry the well-formed first row made
for id `0`. -/
theorem label_malformed_cex :
    (parseLabels ["0:person", "x:car"]).map (fun tb => tb 0) = some (some "car") ∧
    (some (some "car") : Option (Option String)) ≠ some (some "person") := by
  constructor
  · decide
  · decide

/-- C4 amended: a malformed label row is never reported and never stops
the scan of later rows, but it is not ignored either: a row with no colon
at all panics (index out of range on `splits[1]`), and a row with a colon
whose id does not parse is stored under id `0` (`strconv.Atoi`'s zero
value), overwriting any previous entry for id `0`. -/
theorem label_malformed_rows (t : ℤ → Option String) (line : String) :
    (¬hasColon line → processLine t line = none) ∧
    (hasColon line → atoi (idPart line) = none →
      processLine t line = some (mapPut t 0 (descrPart line))) := by
  constructor
  · exact processLine_noColon t line
  · intro h ha
    rw [processLine_hasColon t line h, ha]
    rfl

/-- C4 witness: the colon-less line `"nocolon"` panics; the line
`"x:car"` (id part unparseable) is stored under id `0`. -/
theorem label_malformed_rows_witness :
    (¬hasColon "nocolon" → processLine (fun _ => none) "nocolon" = none) ∧
    (hasColon "x:car" → atoi (idPart "x:car") = none →
      processLine (fun _ => none) "x:car" = some (mapPut (fun _ => none) 0 (descrPart "x:car"))) :=
  ⟨(label_malformed_rows (fun _ => none) "nocolon").1,
   (label_malformed_rows (fun _ => none) "x:car").2⟩

/-- C5 counterexample: for the line `"0:a:b"` the stored description is
`"a"`, the text between the first and second colon, not `"a:b"`, the text
after the first colon. -/
theorem label_split_cex :
    (parseLabels ["0:a:b"]).map (fun tb => tb 0) = some (some "a") ∧
    (some (some "a") : Option (Option String)) ≠ some (some "a:b") := by
  constructor
  · decide
  · decide

/-- C5 amended: each label line is split at every colon and field 1 is
stored, so the description is the text strictly between the first and
second colon (everything after the first colon only when no second colon
exists); on the example content `"0:person\n1:car\n"` the table maps
`0` to `"person"` and `1` to `"car"`. -/
theorem label_parsing (t : ℤ → Option String) (line : String) (h : hasColon line) :
    processLine t line =
      some (mapPut t ((atoi (idPart line)).getD 0) (descrPart line)) ∧
    (parseLabels (scanLines "0:person\n1:car\n")).map (fun tb => (tb 0, tb 1)) =
      some (some "person", some "car") := by
  constructor
  · exact processLine_hasColon t line h
  · decide

/-- C5 witness: the well-formed line `"7:truck"`. -/
theorem label_parsing_witness :
    processLine (fun _ => none) "7:truck" =
      some (mapPut (fun _ => none) ((atoi (idPart "7:truck")).getD 0) (descrPart "7:truck")) ∧
    (parseLabels (scanLines "0:person\n1:car\n")).map (fun tb => (tb 0, tb 1)) =
      some (some "person", some "car") :=
  label_parsing (fun _ => none) "7:truck" (by decide)

theorem bestIdx_loop_spec (ps : List ℚ) (n : ℕ) :
    ((List.range n).foldl (bestStep ps) 0 = 0 ∨ (List.range n).foldl (bestStep ps) 0 < n) ∧
    (∀ j, j < n → ps.getD j 0 ≤ ps.getD ((List.range n).foldl (bestStep ps) 0) 0) ∧
    (∀ j, j < (List.range n).foldl (bestStep ps) 0 →
      ps.getD j 0 < ps.getD ((List.range n).foldl (bestStep ps) 0) 0) := by
  induction n with
  | zero =>
    exact ⟨Or.inl rfl, fun j hj => absurd hj (Nat.not_lt_zero j),
      fun j hj => absurd hj (Nat.not_lt_zero j)⟩
  | succ n ih =>
    obtain ⟨hb, hub, hstrict⟩ := ih
    rw [List.range_succ, List.foldl_append] at *
    simp only [List.foldl_cons, List.foldl_nil] at *
    set b := (List.range n).foldl (bestStep ps) 0 with hbdef
    unfold bestStep
    by_cases hcmp : ps.getD n 0 > ps.getD b 0
    · rw [if_pos hcmp]
      refine ⟨Or.inr (Nat.lt_succ_self n), ?_, ?_⟩
      · intro j hj
        rcases Nat.lt_succ_iff_lt_or_eq.mp hj with hj' | hj'
        · exact le_trans (hub j hj') (le_of_lt hcmp)
        · subst hj'
          exact le_refl _
      · intro j hj
        exact lt_of_le_of_lt (hub j hj) hcmp
    · rw [if_neg hcmp]
      push_neg at hcmp
      refine ⟨?_, ?_, hstrict⟩
      · rcases hb with h0 | h0
        · exact Or.inl h0
        · exact Or.inr (Nat.lt_succ_of_lt h0)
      · intro j hj
        rcases Nat.lt_succ_iff_lt_or_eq.mp hj with hj' | hj'
        · exact hub j hj'
        · subst hj'
          exact hcmp

/-- C6: the classifier postprocessor picks the index of the maximum
probability, ties broken by first occurrence (every earlier index is
strictly smaller), and returns that index's label with its probability;
on probabilities `[0.1, 0.7, 0.2]` with labels `["cat","dog","bird"]` it
returns `("dog", 0.7)`. -/
theorem argmax_selection (ps : List ℚ) (labels : List String) (hne : ps ≠ [])
    (hlab : bestIdx ps < labels.length) :
    bestIdx ps < ps.length ∧
    (∀ j, j < ps.length → ps.getD j 0 ≤ ps.getD (bestIdx ps) 0) ∧
    (∀ j, j < bestIdx ps → ps.getD j 0 < ps.getD (bestIdx ps) 0) ∧
    printBestLabel ps labels = some (labels.getD (bestIdx ps) "", ps.getD (bestIdx ps) 0) ∧
    printBestLabel [1/10, 7/10, 2/10] ["cat", "dog", "bird"] = some ("dog", 7/10) := by
  obtain ⟨hb, hub, hstrict⟩ := bestIdx_loop_spec ps ps.length
  have hlen : 0 < ps.length := List.length_pos.mpr hne
  have hrfl : bestIdx ps = (List.range ps.length).foldl (bestStep ps) 0 := rfl
  have hlt : bestIdx ps < ps.length := by
    rw [hrfl]
    rcases hb with h0 | h0
    · rw [h0]
      exact hlen
    · exact h0
  refine ⟨hlt, ?_, ?_, ?_, ?_⟩
  · intro j hj
    rw [hrfl]
    exact hub j hj
  · intro j hj
    rw [hrfl]
    rw [hrfl] at hj
    exact hstrict j hj
  · have e1 : labels.getD (bestIdx ps) "" = labels[bestIdx ps] :=
      List.getD_eq_getElem labels "" hlab
    have e2 : ps.getD (bestIdx ps) 0 = ps[bestIdx ps] := List.getD_eq_getElem ps 0 hlt
    unfold printBestLabel
    rw [List.getElem?_eq_getElem hlab, List.getElem?_eq_getElem hlt, e1, e2]
  · norm_num [printBestLabel, bestIdx, bestStep, List.range_succ]

/-- C6 witness: the spec's own example vector and label list. -/
theorem argmax_selection_witness :
    bestIdx [1/10, 7/10, 2/10] < ([1/10, 7/10, 2/10] : List ℚ).length ∧
    (∀ j, j < ([1/10, 7/10, 2/10] : List ℚ).length →
      ([1/10, 7/10, 2/10] : List ℚ).getD j 0 ≤
        ([1/10, 7/10, 2/10] : List ℚ).getD (bestIdx [1/10, 7/10, 2/10]) 0) ∧
    (∀ j, j < bestIdx [1/10, 7/10, 2/10] →
      ([1/10, 7/10, 2/10] : List ℚ).getD j 0 <
        ([1/10, 7/10, 2/10] : List ℚ).getD (bestIdx [1/10, 7/10, 2/10]) 0) ∧
    printBestLabel [1/10, 7/10, 2/10] ["cat", "dog", "bird"] =
      some (["cat", "dog", "bird"].getD (bestIdx [1/10, 7/10, 2/10]) "",
        ([1/10, 7/10, 2/10] : List ℚ).getD (bestIdx [1/10, 7/10, 2/10]) 0) ∧
    printBestLabel [1/10, 7/10, 2/10] ["cat", "dog", "bird"] = some ("dog", 7/10) :=
  argmax_selection [1/10, 7/10, 2/10] ["cat", "dog", "bird"] (by decide)
    (by norm_num [bestIdx, bestStep, List.range_succ])

theorem buildDetects_spec (cx cy : ℤ) (boxes : List (Fin 4 → ℚ)) (classes : List ℚ) :
    ∀ (scores : List ℚ) (i : ℕ),
      i + scores.length ≤ boxes.length →
      i + scores.length ≤ classes.length →
      ∃ ds, buildDetects cx cy boxes classes scores i = some ds ∧
        ds.length = scores.length ∧
        ∀ j, j < scores.length →
          ds.getD j zeroDetect =
            ⟨transformBox cx cy (boxes.getD (i + j) (box4 0 0 0 0)),
             truncQ (classes.getD (i + j) 0), some (cx, cy), "", scores.getD j 0⟩ := by
  intro scores
  induction scores with
  | nil =>
    intro i h1 h2
    exact ⟨[], rfl, rfl, fun j hj => absurd hj (by simp)⟩
  | cons score rest ih =>
    intro i h1 h2
    have hib : i < boxes.length := by
      simp only [List.length_cons] at h1
      omega
    have hic : i < classes.length := by
      simp only [List.length_cons] at h2
      omega
    obtain ⟨ds', hds', hlen', hget'⟩ := ih (i + 1)
      (by simp only [List.length_cons] at h1; omega)
      (by simp only [List.length_cons] at h2; omega)
    refine ⟨⟨transformBox cx cy boxes[i], truncQ classes[i], some (cx, cy), "", score⟩ :: ds',
      ?_, ?_, ?_⟩
    · simp only [buildDetects, List.getElem?_eq_getElem hib, List.getElem?_eq_getElem hic]
      rw [hds']
      rfl
    · simp [hlen']
    · intro j hj
      cases j with
      | zero =>
        simp [List.getD_cons_zero, List.getElem?_eq_getElem hib, List.getElem?_eq_getElem hic]
      | succ j =>
        simp only [List.getD_cons_succ]
        have hj' : j < rest.length := by
          simp only [List.length_cons] at hj
          omega
        have hrw : i + (j + 1) = i + 1 + j := by omega
        rw [hrw]
        exact hget' j hj'

/-- C7: for every chip, the detection list handed to `printDetections`
starts with a spurious all-zero record (printed as `"0 0 0 0 0 0"`) that
does not come from the model's outputs — `make([]Detect, 1)` creates it
before the loop appends anything — and the model's detections follow it
in score-array order. -/
theorem spurious_zero_detection (cx cy : ℤ) (boxes : List (Fin 4 → ℚ)) (scores classes : List ℚ)
    (h1 : scores.length ≤ boxes.length) (h2 : scores.length ≤ classes.length) :
    (∃ ds, chipDetects cx cy boxes scores classes = some (zeroDetect :: ds) ∧
      ds.length = scores.length ∧
      ∀ j, j < scores.length →
        ds.getD j zeroDetect =
          ⟨transformBox cx cy (boxes.getD j (box4 0 0 0 0)),
           truncQ (classes.getD j 0), some (cx, cy), "", scores.getD j 0⟩) ∧
    detectLine zeroDetect = "0 0 0 0 0 0" := by
  constructor
  · obtain ⟨ds, hds, hlen, hget⟩ := buildDetects_spec cx cy boxes classes scores 0
      (by omega) (by omega)
    refine ⟨ds, ?_, hlen, ?_⟩
    · unfold chipDetects
      rw [hds]
      rfl
    · intro j hj
      have := hget j hj
      simpa using this
  · decide

/-- C7 witness: one chip at grid `(0, 0)` with a single model detection. -/
theorem spurious_zero_detection_witness :
    (∃ ds, chipDetects 0 0 [box4 0 0 1 1] [1/2] [3] = some (zeroDetect :: ds) ∧
      ds.length = ([1/2] : List ℚ).length ∧
      ∀ j, j < ([1/2] : List ℚ).length →
        ds.getD j zeroDetect =
          ⟨transformBox 0 0 ([box4 0 0 1 1].getD j (box4 0 0 0 0)),
           truncQ (([3] : List ℚ).getD j 0), some (0, 0), "", ([1/2] : List ℚ).getD j 0⟩) ∧
    detectLine zeroDetect = "0 0 0 0 0 0" :=
  spurious_zero_detection 0 0 [box4 0 0 1 1] [1/2] [3] (by decide) (by decide)

/-- C9: an image smaller than one chip in either dimension yields
`wn = 0` or `hn = 0`, hence zero chips — not an error, the tiler and the
per-chip loop just run over an empty list — and consequently no
detections are emitted. -/
theorem undersized_image (Wi Hi : ℕ) (run : Chip → List Detect) (h : Wi < W ∨ Hi < H) :
    (wn Wi = 0 ∨ hn Hi = 0) ∧ chips Wi Hi = [] ∧ imageDetections Wi Hi run = [] := by
  have hz : wn Wi = 0 ∨ hn Hi = 0 := by
    rcases h with h | h
    · exact Or.inl (Nat.div_eq_of_lt h)
    · exact Or.inr (Nat.div_eq_of_lt h)
  have hchips : chips Wi Hi = [] := by
    rcases hz with h0 | h0 <;> simp [chips, h0]
  exact ⟨hz, hchips, by simp [imageDetections, hchips]⟩

/-- C9 witness: a 200 by 700 image, narrower than one chip. -/
theorem undersized_image_witness :
    (wn 200 = 0 ∨ hn 700 = 0) ∧ chips 200 700 = [] ∧
    imageDetections 200 700 (fun _ => [zeroDetect]) = [] :=
  undersized_image 200 700 (fun _ => [zeroDetect]) (by decide)

/-- C10: in either binary, a missing (empty) `-dir` or `-image` flag takes
the usage path: usage is printed and `main` returns plainly — exit status
0, no model loading, no inference, no result output. -/
theorem cli_missing_flags (d i : String) (h : d = "" ∨ i = "") :
    classifierMain d i = .usage ∧ detectorMain d i = .usage ∧
    loadsModel (classifierMain d i) = false ∧ loadsModel (detectorMain d i) = false ∧
    exitCode (classifierMain d i) = some 0 ∧ exitCode (detectorMain d i) = some 0 := by
  have hc : classifierMain d i = .usage := by
    unfold classifierMain
    rw [if_pos h]
  have hd : detectorMain d i = .usage := by
    unfold detectorMain
    rw [if_pos h]
  refine ⟨hc, hd, ?_, ?_, ?_, ?_⟩ <;> simp [hc, hd, loadsModel, exitCode]

/-- C10 witness: missing `-dir` flag with an `-image` flag supplied. -/
theorem cli_missing_flags_witness :
    classifierMain "" "photo.jpg" = .usage ∧ detectorMain "" "photo.jpg" = .usage ∧
    loadsModel (classifierMain "" "photo.jpg") = false ∧
    loadsModel (detectorMain "" "photo.jpg") = false ∧
    exitCode (classifierMain "" "photo.jpg") = some 0 ∧
    exitCode (detectorMain "" "photo.jpg") = some 0 :=
  cli_missing_flags "" "photo.jpg" (Or.inl rfl)

end TFGo
